import Mathlib

/-!
Verification development for the nanobot memory subsystem
(`nanobot/agent/memory.py`, `nanobot/agent/vectorstore.py`).

The Python code is shallowly embedded:
- strings are Lean `String`s, Python `str.split` / `str.strip` are modelled
  by structurally recursive functions over the character list;
- the on-disk workspace is an association list from path to file content;
- the ChromaDB collection (an external backend, not part of the repository)
  is modelled from the spec: an unordered keyed set of chunks where `upsert`
  replaces entries with the same identity, `query` returns up to `n_results`
  best matches among the entries satisfying the metadata filter (the
  similarity ranking itself is backend-internal and is a parameter `rank`),
  and a query failure is modelled by a Boolean `backendFails`;
- a Python exception raised by the backend during an upsert is modelled by
  `IndexOutcome.raised c` where `c` is the (backend-determined) collection
  state left behind.
-/

namespace Nanobot

/-- Python whitespace, as stripped by `str.strip()`. -/
def isPyWhitespace (c : Char) : Bool :=
  c == ' ' || c == '\t' || c == '\n' || c == '\r' || c == '\x0b' || c == '\x0c'

/-- Strip leading and trailing whitespace from a character list. -/
def trimChars (l : List Char) : List Char :=
  ((l.dropWhile isPyWhitespace).reverse.dropWhile isPyWhitespace).reverse

/-- Model of Python `str.strip()`. -/
def pyStrip (s : String) : String :=
  String.mk (trimChars s.data)

/-- Model of Python `text.split("\x5cn\x5cn")`: greedy left-to-right split on
the two-character separator, keeping empty parts. -/
def splitOnBlank : List Char → List Char → List (List Char)
  | [], acc => [acc.reverse]
  | '\n' :: '\n' :: rest, acc => acc.reverse :: splitOnBlank rest []
  | c :: rest, acc => splitOnBlank rest (c :: acc)

/-- Model of Python `"sep".join(parts)`. -/
def joinSep (sep : String) : List String → String
  | [] => ""
  | [x] => x
  | x :: y :: ys => x ++ sep ++ joinSep sep (y :: ys)

/-- Split a character list on a single separator character. -/
def splitOnChar (sep : Char) : List Char → List Char → List (List Char)
  | [], acc => [acc.reverse]
  | c :: rest, acc =>
    if c == sep then acc.reverse :: splitOnChar sep rest []
    else splitOnChar sep rest (c :: acc)

/-- Join character lists with a single separator character. -/
def joinCharSep (sep : Char) : List (List Char) → List Char
  | [] => []
  | [x] => x
  | x :: y :: ys => x ++ sep :: joinCharSep sep (y :: ys)

/-- `VectorStore.MIN_CHUNK_LENGTH` from `vectorstore.py`. -/
def MIN_CHUNK_LENGTH : Nat := 50

/-- `VectorStore._split_paragraphs` from `vectorstore.py`:
split text by double newline, strip each paragraph, keep those whose
stripped length is at least `MIN_CHUNK_LENGTH`.  This is the list
comprehension `[p.strip() for p in paragraphs if len(p.strip()) >= 50]`. -/
def split_paragraphs (text : String) : List String :=
  let paragraphs := (splitOnBlank text.data []).map String.mk
  (paragraphs.filter (fun p => MIN_CHUNK_LENGTH ≤ (pyStrip p).length)).map pyStrip

/-- Chunker as worded by the spec: the blank-line-separated paragraphs of the
text, each trimmed of surrounding whitespace, keeping only those whose
trimmed length is at least 50, in original order. -/
def splitParagraphsSpec (text : String) : List String :=
  (((splitOnBlank text.data []).map String.mk).map pyStrip).filter
    (fun p => MIN_CHUNK_LENGTH ≤ p.length)

/-- Model of Python `pathlib.Path.stem`: the final path component without its
last extension.  (Our paths' final components never start with a dot.) -/
def pathStem (path : String) : String :=
  let name := (splitOnChar '/' path.data []).getLastD []
  match splitOnChar '.' name [] with
  | [] => String.mk name
  | [_] => String.mk name
  | ps => String.mk (joinCharSep '.' ps.dropLast)

/-- One chunk stored in the backend collection: identity, document text and
the metadata `source` and `type` written by `upsert_file`. -/
structure Entry where
  id : String
  doc : String
  source : String
  type : String
deriving DecidableEq

/-- Modelled from the spec: the ChromaDB collection, an external backend.
A keyed set of chunks, represented as a list with identities as keys. -/
abbrev Collection := List Entry

/-- Does the collection hold an entry with the given identity? -/
def hasId (c : Collection) (i : String) : Bool :=
  c.any (fun e => e.id == i)

/-- Modelled from the spec: backend upsert of a single chunk — replaces the
entry with the same identity if present, otherwise adds the chunk. -/
def upsertOne (c : Collection) (e : Entry) : Collection :=
  if hasId c e.id then c.map (fun x => if x.id == e.id then e else x)
  else c ++ [e]

/-- Modelled from the spec: backend upsert of a batch of chunks
(`collection.upsert(ids=..., documents=..., metadatas=...)`). -/
def collUpsert (c : Collection) (es : List Entry) : Collection :=
  es.foldl upsertOne c

/-- Look up the entry with the given identity. -/
def findEntry? (c : Collection) (i : String) : Option Entry :=
  c.find? (fun e => e.id == i)

/-- `VectorStore.count` from `vectorstore.py`: total number of chunks. -/
def count (c : Collection) : Nat :=
  c.length

/-- The deterministic chunk identity `f"\x7bsource\x7d::\x7bi\x7d"` built by
`upsert_file`. -/
def mkId (source : String) (i : Nat) : String :=
  source ++ "::" ++ Nat.repr i

/-- The workspace file system: an association list from path to content. -/
abbrev FS := List (String × String)

/-- Read a file, `none` when the path does not exist. -/
def fsRead? (fs : FS) (p : String) : Option String :=
  (fs.find? (fun e => e.1 == p)).map (fun e => e.2)

/-- Model of `Path.write_text`: overwrite the file at `p`, creating it if
absent. -/
def fsWrite (fs : FS) (p v : String) : FS :=
  if fs.any (fun e => e.1 == p) then fs.map (fun e => if e.1 == p then (p, v) else e)
  else fs ++ [(p, v)]

/-- The parallel lists `ids`, `documents`, `metadatas` built by
`upsert_file`, zipped into entries: identity `source::i` for each chunk `i`
with metadata `source`/`docType`. -/
def chunkEntries (source docType : String) (chunks : List String) : List Entry :=
  ((List.range chunks.length).zip chunks).map
    (fun p => Entry.mk (mkId source p.1) p.2 source docType)

/-- `VectorStore.upsert_file` from `vectorstore.py`: return `(c, 0)` when the
file does not exist or produces no chunks; otherwise upsert the chunks under
identities `source::0 … source::(k-1)` with metadata `source`/`type` and
return the new collection and the chunk count. -/
def upsert_file (c : Collection) (fs : FS) (path : String) (docType : String) :
    Collection × Nat :=
  match fsRead? fs path with
  | none => (c, 0)
  | some text =>
    let chunks := split_paragraphs text
    if chunks.isEmpty then (c, 0)
    else (collUpsert c (chunkEntries (pathStem path) docType chunks), chunks.length)

/-- The metadata filter language used by `memory.py`: equality on `type`,
negation on `source`, conjunction (the dict
`\x7b"$and": [\x7b"type": ...\x7d, \x7b"source": \x7b"$ne": ...\x7d\x7d]\x7d`). -/
inductive WhereClause where
  | typeEq (v : String)
  | sourceNe (v : String)
  | and (l r : WhereClause)

/-- Modelled from the spec: metadata filter evaluation (backend-internal). -/
def WhereClause.eval : WhereClause → Entry → Bool
  | .typeEq v, e => e.type == v
  | .sourceNe v, e => e.source != v
  | .and l r, e => l.eval e && r.eval e

/-- Modelled from the spec: `collection.query` — among the entries satisfying
the metadata filter, the backend returns up to `n` best matches; the
similarity ranking is backend-internal and is passed as `rank`. -/
def collQuery (c : Collection) (w : Option WhereClause) (n : Nat)
    (rank : List Entry → List Entry) : List String :=
  let cands := c.filter (fun e => match w with | none => true | some w => w.eval e)
  ((rank cands).take n).map (fun e => e.doc)

/-- `VectorStore.search` from `vectorstore.py`: query the backend; when the
backend raises (`backendFails`), the exception is caught and logged and the
empty list is returned. -/
def search (c : Collection) (q : String) (nResults : Nat) (w : Option WhereClause)
    (rank : List Entry → List Entry) (backendFails : Bool) : List String :=
  if backendFails then [] else collQuery c w nResults rank

/-- Outcome of an indexing call that may raise: either it succeeds, or it
raises leaving the backend collection in state `c`. -/
inductive IndexOutcome where
  | ok
  | raised (c : Collection)

/-- State of a `MemoryStore`: the workspace files and the optional vector
store collection (`none` when chromadb is unavailable). -/
structure MemState where
  fs : FS
  vector : Option Collection

/-- Path of today's memory file, `memory/\x7btoday\x7d.md`. -/
def todayPath (today : String) : String :=
  "memory/" ++ today ++ ".md"

/-- Path of the long-term memory file. -/
def memoryFilePath : String :=
  "memory/MEMORY.md"

/-- Run the indexing upsert under the given outcome: on success the model
collection results, on a raised exception the backend-determined state. -/
def applyIndexOutcome (c : Collection) (fs : FS) (path docType : String) :
    IndexOutcome → Collection
  | .ok => (upsert_file c fs path docType).1
  | .raised c2 => c2

/-- `MemoryStore.read_today` from `memory.py`. -/
def read_today (s : MemState) (today : String) : String × MemState :=
  (match fsRead? s.fs (todayPath today) with
   | some t => t
   | none => "", s)

/-- `MemoryStore.append_today` from `memory.py`: append to (or create)
today's file, then try to upsert it into the vector store, swallowing any
exception (`IndexOutcome.raised`). -/
def append_today (s : MemState) (today content : String) (o : IndexOutcome) :
    MemState :=
  let path := todayPath today
  let newContent :=
    match fsRead? s.fs path with
    | some existing => existing ++ "\n" ++ content
    | none => "# " ++ today ++ "\n\n" ++ content
  let fs2 := fsWrite s.fs path newContent
  MemState.mk fs2 (s.vector.map (fun c => applyIndexOutcome c fs2 path "daily" o))

/-- `MemoryStore.read_long_term` from `memory.py`. -/
def read_long_term (s : MemState) : String × MemState :=
  (match fsRead? s.fs memoryFilePath with
   | some t => t
   | none => "", s)

/-- `MemoryStore.write_long_term` from `memory.py`: overwrite `MEMORY.md`,
then try to upsert it, swallowing any exception. -/
def write_long_term (s : MemState) (content : String) (o : IndexOutcome) :
    MemState :=
  let fs2 := fsWrite s.fs memoryFilePath content
  MemState.mk fs2
    (s.vector.map (fun c => applyIndexOutcome c fs2 memoryFilePath "long_term" o))

/-- `MemoryStore.get_recent_memories` from `memory.py`: read the files of the
last `days` days (the clock is external, passed as `dateOfDaysAgo`), skipping
missing ones, joined with a separator. -/
def get_recent_memories (s : MemState) (dateOfDaysAgo : Nat → String)
    (days : Nat) : String × MemState :=
  let mems := (List.range days).filterMap
    (fun i => fsRead? s.fs (todayPath (dateOfDaysAgo i)))
  (joinSep "\n\n---\n\n" mems, s)

/-- Does a file name match the glob `????-??-??.md` (no slash in the name)? -/
def matchesDailyPattern (name : List Char) : Bool :=
  match name with
  | [_, _, _, _, '-', _, _, '-', _, _, '.', 'm', 'd'] => name.all (fun c => c != '/')
  | _ => false

/-- `MemoryStore.list_memory_files` from `memory.py`: the daily files in the
memory directory, sorted descending. -/
def list_memory_files (s : MemState) : List String × MemState :=
  let names := s.fs.filterMap (fun e =>
    if ("memory/".data).isPrefixOf e.1.data ∧ matchesDailyPattern (e.1.data.drop 7)
    then some e.1 else none)
  (names.mergeSort (fun a b => decide (b ≤ a)), s)

/-- The re-indexing of today's file performed by `get_memory_context` and
`search_memory` before searching: upsert today's file if it exists, swallowing
any exception. -/
def refreshToday (fs : FS) (today : String) (c : Collection) (o : IndexOutcome) :
    Collection :=
  if (fsRead? fs (todayPath today)).isSome then
    applyIndexOutcome c fs (todayPath today) "daily" o
  else c

/-- The metadata filter built by `get_memory_context`: daily type and source
not equal to today. -/
def contextWhere (today : String) : WhereClause :=
  .and (.typeEq "daily") (.sourceNe today)

/-- The semantic search step of `get_memory_context`: search the refreshed
collection with the daily/not-today filter, at most 5 results. -/
def contextSearchResults (s : MemState) (today q : String)
    (rank : List Entry → List Entry) (o : IndexOutcome) (backendFails : Bool) :
    List String :=
  match s.vector with
  | none => []
  | some c => search (refreshToday s.fs today c o) q 5 (some (contextWhere today))
      rank backendFails

/-- The vector state after `get_memory_context` refreshed today's file. -/
def contextVector (s : MemState) (today : String) (o : IndexOutcome) :
    Option Collection :=
  s.vector.map (fun c => refreshToday s.fs today c o)

/-- `MemoryStore.get_memory_context` from `memory.py`. -/
def get_memory_context (s : MemState) (today : String) (query : Option String)
    (rank : List Entry → List Entry) (o : IndexOutcome) (backendFails : Bool) :
    String × MemState :=
  let lt := (read_long_term s).1
  let parts1 := if lt.isEmpty then [] else ["## Long-term Memory\n" ++ lt]
  let td := (read_today s today).1
  let parts2 := parts1 ++ (if td.isEmpty then [] else ["## Today's Notes\n" ++ td])
  match query, s.vector with
  | some q, some _ =>
    if q.isEmpty then (joinSep "\n\n" parts2, s)
    else
      let results := contextSearchResults s today q rank o backendFails
      let parts3 := parts2 ++
        (if results.isEmpty then []
         else ["## Relevant Past Memories\n" ++ joinSep "\n\n---\n\n" results])
      (joinSep "\n\n" parts3, MemState.mk s.fs (contextVector s today o))
  | _, _ => (joinSep "\n\n" parts2, s)

/-- The numbered fragment listing built by `search_memory`. -/
def formatFragments (results : List String) : String :=
  joinSep "\n"
    (("Found " ++ Nat.repr results.length ++ " relevant memory fragments:\n")
      :: ((List.range results.length).zip results).map
        (fun p => "--- Fragment " ++ Nat.repr (p.1 + 1) ++ " ---\n" ++ p.2 ++ "\n"))

/-- The fixed unavailability sentinel returned by `search_memory` when no
vector store is configured. -/
def searchUnavailableMsg : String :=
  "Semantic search unavailable (chromadb not installed). Use read_file to read memory files directly."

/-- `MemoryStore.search_memory` from `memory.py`. -/
def search_memory (s : MemState) (today query : String) (nResults : Nat)
    (rank : List Entry → List Entry) (o : IndexOutcome) (backendFails : Bool) :
    String × MemState :=
  match s.vector with
  | none => (searchUnavailableMsg, s)
  | some c =>
    let c2 := refreshToday s.fs today c o
    let results := search c2 query nResults none rank backendFails
    if results.isEmpty then
      ("No memories found for: " ++ query, MemState.mk s.fs (some c2))
    else
      (formatFragments results, MemState.mk s.fs (some c2))

/-- The decimal digit list of a natural number (proof-side companion of
`Nat.toDigits 10`). -/
def digitsOf (n : Nat) : List Char :=
  if h : n < 10 then [Nat.digitChar n]
  else digitsOf (n / 10) ++ [Nat.digitChar (n % 10)]
termination_by n
decreasing_by
  exact Nat.div_lt_self (by omega) (by omega)

/-! ### Lemmas about the backend collection model -/

theorem collUpsert_nil (c : Collection) : collUpsert c [] = c := rfl

theorem collUpsert_cons (c : Collection) (a : Entry) (rest : List Entry) :
    collUpsert c (a :: rest) = collUpsert (upsertOne c a) rest := rfl

theorem hasId_upsertOne_self (c : Collection) (e : Entry) :
    hasId (upsertOne c e) e.id = true := by
  unfold upsertOne
  split
  · rename_i h
    unfold hasId at h ⊢
    simp only [List.any_eq_true, beq_iff_eq] at h ⊢
    obtain ⟨x, hx, hxe⟩ := h
    exact ⟨e, List.mem_map.mpr ⟨x, hx, by simp [hxe]⟩, rfl⟩
  · unfold hasId
    simp [List.any_append]

theorem hasId_upsertOne_mono (c : Collection) (e : Entry) (i : String)
    (h : hasId c i = true) : hasId (upsertOne c e) i = true := by
  unfold upsertOne
  split
  · unfold hasId at h ⊢
    simp only [List.any_eq_true, beq_iff_eq] at h ⊢
    obtain ⟨x, hx, hxi⟩ := h
    by_cases hxe : x.id = e.id
    · exact ⟨e, List.mem_map.mpr ⟨x, hx, by simp [hxe]⟩, by rw [← hxe, hxi]⟩
    · exact ⟨x, List.mem_map.mpr ⟨x, hx, by simp [hxe]⟩, hxi⟩
  · unfold hasId at h ⊢
    simp [List.any_append, h]

theorem length_upsertOne (c : Collection) (e : Entry) :
    (upsertOne c e).length = if hasId c e.id then c.length else c.length + 1 := by
  unfold upsertOne
  split <;> simp_all

theorem hasId_collUpsert_mono (es : List Entry) (c : Collection) (i : String)
    (h : hasId c i = true) : hasId (collUpsert c es) i = true := by
  induction es generalizing c with
  | nil => exact h
  | cons a rest ih =>
    rw [collUpsert_cons]
    exact ih (upsertOne c a) (hasId_upsertOne_mono c a i h)

theorem hasId_collUpsert_mem (es : List Entry) (c : Collection) :
    ∀ e ∈ es, hasId (collUpsert c es) e.id = true := by
  induction es generalizing c with
  | nil => intro e he; cases he
  | cons a rest ih =>
    intro e he
    rw [collUpsert_cons]
    rcases List.mem_cons.mp he with rfl | he2
    · exact hasId_collUpsert_mono rest _ _ (hasId_upsertOne_self c e)
    · exact ih (upsertOne c a) e he2

theorem length_collUpsert_of_hasId (es : List Entry) (c : Collection)
    (h : ∀ e ∈ es, hasId c e.id = true) : (collUpsert c es).length = c.length := by
  induction es generalizing c with
  | nil => rfl
  | cons a rest ih =>
    rw [collUpsert_cons]
    rw [ih (upsertOne c a)
      (fun e he => hasId_upsertOne_mono c a e.id (h e (List.mem_cons_of_mem a he)))]
    rw [length_upsertOne, h a (List.mem_cons_self a rest)]
    simp

theorem collUpsert_idem_length (c : Collection) (es : List Entry) :
    (collUpsert (collUpsert c es) es).length = (collUpsert c es).length :=
  length_collUpsert_of_hasId es _ (hasId_collUpsert_mem es c)

theorem findEntry?_map_self (c : Collection) (e : Entry) (h : hasId c e.id = true) :
    findEntry? (c.map (fun x => if x.id == e.id then e else x)) e.id = some e := by
  induction c with
  | nil => simp [hasId] at h
  | cons x rest ih =>
    rw [List.map_cons]
    by_cases hxe : x.id = e.id
    · unfold findEntry?
      rw [if_pos (by simp [hxe])]
      rw [List.find?_cons_of_pos _ (by simp)]
    · have h2 : hasId rest e.id = true := by
        unfold hasId at h
        simp only [List.any_cons, Bool.or_eq_true, beq_iff_eq] at h
        rcases h with h | h
        · exact absurd h hxe
        · exact h
      unfold findEntry? at ih ⊢
      rw [if_neg (by simp [hxe])]
      rw [List.find?_cons_of_neg _ (by simp [hxe])]
      exact ih h2

theorem findEntry?_map_frame (c : Collection) (e : Entry) (i : String)
    (hne : i ≠ e.id) :
    findEntry? (c.map (fun x => if x.id == e.id then e else x)) i
      = findEntry? c i := by
  induction c with
  | nil => rfl
  | cons x rest ih =>
    rw [List.map_cons]
    by_cases hxe : x.id = e.id
    · unfold findEntry? at ih ⊢
      rw [if_pos (by simp [hxe])]
      rw [List.find?_cons_of_neg _ (by simp; exact fun hh => hne hh.symm)]
      rw [List.find?_cons_of_neg _ (by simp [hxe]; exact fun hh => hne hh.symm)]
      exact ih
    · unfold findEntry? at ih ⊢
      rw [if_neg (by simp [hxe])]
      by_cases hxi : x.id = i
      · rw [List.find?_cons_of_pos _ (by simp [hxi])]
        rw [List.find?_cons_of_pos _ (by simp [hxi])]
      · rw [List.find?_cons_of_neg _ (by simp [hxi])]
        rw [List.find?_cons_of_neg _ (by simp [hxi])]
        exact ih

theorem findEntry?_of_not_hasId (c : Collection) (i : String)
    (h : hasId c i = false) : findEntry? c i = none := by
  unfold findEntry?
  refine List.find?_eq_none.mpr ?_
  intro x hx
  unfold hasId at h
  simp only [List.any_eq_false, beq_iff_eq] at h
  simp [h x hx]

theorem findEntry?_upsertOne_self (c : Collection) (e : Entry) :
    findEntry? (upsertOne c e) e.id = some e := by
  unfold upsertOne
  split
  · rename_i h
    exact findEntry?_map_self c e h
  · rename_i h
    unfold findEntry?
    rw [List.find?_append]
    have h0 : List.find? (fun x => x.id == e.id) c = none := by
      have h1 := findEntry?_of_not_hasId c e.id (by simpa using h)
      simpa [findEntry?] using h1
    rw [h0]
    simp [List.find?]

theorem findEntry?_upsertOne_frame (c : Collection) (e : Entry) (i : String)
    (hne : i ≠ e.id) : findEntry? (upsertOne c e) i = findEntry? c i := by
  unfold upsertOne
  split
  · exact findEntry?_map_frame c e i hne
  · unfold findEntry?
    rw [List.find?_append]
    cases hf : List.find? (fun x => x.id == i) c with
    | some x => simp
    | none =>
      have hb : (e.id == i) = false := beq_eq_false_iff_ne.mpr (Ne.symm hne)
      simp [List.find?, hb]

theorem findEntry?_collUpsert_frame (es : List Entry) (c : Collection) (i : String)
    (h : ∀ e ∈ es, e.id ≠ i) :
    findEntry? (collUpsert c es) i = findEntry? c i := by
  induction es generalizing c with
  | nil => rfl
  | cons a rest ih =>
    rw [collUpsert_cons]
    rw [ih (upsertOne c a) (fun e he => h e (List.mem_cons_of_mem a he))]
    exact findEntry?_upsertOne_frame c a i
      (fun hh => h a (List.mem_cons_self a rest) hh.symm)

theorem findEntry?_collUpsert_mem (es : List Entry) (c : Collection)
    (hnd : (es.map Entry.id).Nodup) :
    ∀ e ∈ es, findEntry? (collUpsert c es) e.id = some e := by
  induction es generalizing c with
  | nil => intro e he; cases he
  | cons a rest ih =>
    intro e he
    rw [collUpsert_cons]
    have hnd2 : (∀ x ∈ rest, ¬ x.id = a.id) ∧ (List.map Entry.id rest).Nodup := by
      simpa using hnd
    rcases List.mem_cons.mp he with rfl | he2
    · rw [findEntry?_collUpsert_frame rest (upsertOne c e) e.id
        (fun x hx hxe => hnd2.1 x hx hxe)]
      exact findEntry?_upsertOne_self c e
    · exact ih (upsertOne c a) hnd2.2 e he2

/-! ### Injectivity of the decimal chunk identities -/

theorem digitsOf_ne_nil (n : Nat) : digitsOf n ≠ [] := by
  unfold digitsOf
  split
  · simp
  · simp

theorem digitChar_inj_lt :
    ∀ a < 10, ∀ b < 10, Nat.digitChar a = Nat.digitChar b → a = b := by
  decide

theorem digitsOf_lt (n : Nat) (h : n < 10) : digitsOf n = [Nat.digitChar n] := by
  rw [digitsOf]
  exact dif_pos h

theorem digitsOf_ge (n : Nat) (h : ¬ n < 10) :
    digitsOf n = digitsOf (n / 10) ++ [Nat.digitChar (n % 10)] := by
  conv_lhs => rw [digitsOf]
  exact dif_neg h

theorem digitsOf_inj (m : Nat) : ∀ n, digitsOf m = digitsOf n → m = n := by
  induction m using Nat.strong_induction_on with
  | _ m ih =>
    intro n h
    by_cases hm : m < 10 <;> by_cases hn : n < 10
    · rw [digitsOf_lt m hm, digitsOf_lt n hn] at h
      exact digitChar_inj_lt m hm n hn (List.singleton_inj.mp h)
    · rw [digitsOf_lt m hm, digitsOf_ge n hn] at h
      have hlen := congrArg List.length h
      rw [List.length_append] at hlen
      simp only [List.length_singleton] at hlen
      have h0 : (digitsOf (n / 10)).length = 0 := by omega
      exact absurd (List.length_eq_zero.mp h0) (digitsOf_ne_nil (n / 10))
    · rw [digitsOf_ge m hm, digitsOf_lt n hn] at h
      have hlen := congrArg List.length h
      rw [List.length_append] at hlen
      simp only [List.length_singleton] at hlen
      have h0 : (digitsOf (m / 10)).length = 0 := by omega
      exact absurd (List.length_eq_zero.mp h0) (digitsOf_ne_nil (m / 10))
    · rw [digitsOf_ge m hm, digitsOf_ge n hn] at h
      have h2 := List.append_inj' h (by simp)
      have hdiv : m / 10 = n / 10 :=
        ih (m / 10) (Nat.div_lt_self (by omega) (by omega)) (n / 10) h2.1
      have hmod : m % 10 = n % 10 :=
        digitChar_inj_lt (m % 10) (Nat.mod_lt m (by omega)) (n % 10)
          (Nat.mod_lt n (by omega)) (List.singleton_inj.mp h2.2)
      omega

theorem toDigitsCore_eq_digitsOf :
    ∀ fuel n ds, n < fuel →
      Nat.toDigitsCore 10 fuel n ds = digitsOf n ++ ds := by
  intro fuel
  induction fuel with
  | zero => intro n ds h; omega
  | succ f ih =>
    intro n ds h
    rw [Nat.toDigitsCore]
    by_cases h0 : n / 10 = 0
    · have hn : n < 10 := by omega
      simp only [h0, if_pos rfl]
      rw [digitsOf_lt n hn, Nat.mod_eq_of_lt hn]
      rfl
    · simp only [h0, if_neg h0]
      have hn : ¬ n < 10 := by
        intro hh
        exact h0 (Nat.div_eq_of_lt hh)
      rw [ih (n / 10) _ (by
        have := Nat.div_lt_self (by omega : 0 < n) (by omega : 1 < 10)
        omega)]
      rw [digitsOf_ge n hn]
      simp

theorem repr_eq_digitsOf (n : Nat) : Nat.repr n = (digitsOf n).asString := by
  rw [Nat.repr, Nat.toDigits, toDigitsCore_eq_digitsOf (n + 1) n [] (Nat.lt_succ_self n)]
  simp

theorem nat_repr_inj (m n : Nat) (h : Nat.repr m = Nat.repr n) : m = n := by
  rw [repr_eq_digitsOf, repr_eq_digitsOf] at h
  have h2 : digitsOf m = digitsOf n := by
    have := congrArg String.data h
    simpa [List.asString] using this
  exact digitsOf_inj m n h2

theorem string_append_data (a b : String) : (a ++ b).data = a.data ++ b.data := rfl

theorem mkId_inj (s : String) (i j : Nat) (h : mkId s i = mkId s j) : i = j := by
  unfold mkId at h
  have hd := congrArg String.data h
  simp only [string_append_data, List.append_assoc] at hd
  have hr : (Nat.repr i).data = (Nat.repr j).data :=
    List.append_cancel_left (List.append_cancel_left hd)
  exact nat_repr_inj i j (String.ext hr)

/-- Claim C1: upsert is idempotent on the chunk count — for any file and doc
type, calling `upsert_file` twice in succession with identical file content
leaves the index with the same total chunk count as after the first call. -/
theorem upsert_file_idempotent_count (c : Collection) (fs : FS)
    (path docType : String) :
    count (upsert_file (upsert_file c fs path docType).1 fs path docType).1
      = count (upsert_file c fs path docType).1 := by
  unfold upsert_file
  cases hr : fsRead? fs path with
  | none => simp
  | some text =>
    by_cases hc : (split_paragraphs text).isEmpty
    · simp [hc]
    · simp only [hc, if_false, Bool.false_eq_true]
      exact collUpsert_idem_length c _

/-! ### Lemmas about the chunk entry lists built by `upsert_file` -/

theorem chunkEntries_map_id (s d : String) (chunks : List String) :
    (chunkEntries s d chunks).map Entry.id
      = (List.range chunks.length).map (mkId s) := by
  unfold chunkEntries
  rw [List.map_map]
  have hfst : ((List.range chunks.length).zip chunks).map Prod.fst
      = List.range chunks.length :=
    List.map_fst_zip _ _ (by simp)
  calc ((List.range chunks.length).zip chunks).map
        (Entry.id ∘ fun p => Entry.mk (mkId s p.1) p.2 s d)
      = ((List.range chunks.length).zip chunks).map ((mkId s) ∘ Prod.fst) := rfl
    _ = (((List.range chunks.length).zip chunks).map Prod.fst).map (mkId s) := by
        rw [List.map_map]
    _ = (List.range chunks.length).map (mkId s) := by rw [hfst]

theorem chunkEntries_nodup (s d : String) (chunks : List String) :
    ((chunkEntries s d chunks).map Entry.id).Nodup := by
  rw [chunkEntries_map_id]
  exact (List.nodup_range _).map (fun i j h => mkId_inj s i j h)

theorem chunkEntries_mem (s d : String) (chunks : List String) (i : Nat)
    (hi : i < chunks.length) :
    Entry.mk (mkId s i) (chunks.get ⟨i, hi⟩) s d ∈ chunkEntries s d chunks := by
  have hz : i < ((List.range chunks.length).zip chunks).length := by simp [hi]
  refine List.mem_map.mpr ⟨(i, chunks.get ⟨i, hi⟩), ?_, rfl⟩
  have h1 : ((List.range chunks.length).zip chunks)[i] = (i, chunks.get ⟨i, hi⟩) := by
    rw [List.getElem_zip]
    simp [List.getElem_range]
  rw [← h1]
  exact List.getElem_mem hz

theorem chunkEntries_id_lt (s d : String) (chunks : List String) (e : Entry)
    (he : e ∈ chunkEntries s d chunks) :
    ∃ i, i < chunks.length ∧ e.id = mkId s i := by
  obtain ⟨p, hp, rfl⟩ := List.mem_map.mp he
  refine ⟨p.1, ?_, rfl⟩
  have h1 := (List.of_mem_zip hp).1
  simpa using List.mem_range.mp h1

theorem findEntry?_upsert_chunks (c : Collection) (s d : String)
    (chunks : List String) (i : Nat) (hi : i < chunks.length) :
    findEntry? (collUpsert c (chunkEntries s d chunks)) (mkId s i)
      = some (Entry.mk (mkId s i) (chunks.get ⟨i, hi⟩) s d) :=
  findEntry?_collUpsert_mem _ c (chunkEntries_nodup s d chunks) _
    (chunkEntries_mem s d chunks i hi)

theorem findEntry?_upsert_chunks_frame (c : Collection) (s d : String)
    (chunks : List String) (j : String)
    (h : ∀ i, i < chunks.length → j ≠ mkId s i) :
    findEntry? (collUpsert c (chunkEntries s d chunks)) j = findEntry? c j := by
  apply findEntry?_collUpsert_frame
  intro e he
  obtain ⟨i, hi, hid⟩ := chunkEntries_id_lt s d chunks e he
  rw [hid]
  exact fun hh => h i hi hh.symm

theorem upsert_file_eq_of_some (c : Collection) (fs : FS) (path docType text : String)
    (h : fsRead? fs path = some text)
    (hne : (split_paragraphs text).isEmpty = false) :
    upsert_file c fs path docType
      = (collUpsert c (chunkEntries (pathStem path) docType (split_paragraphs text)),
         (split_paragraphs text).length) := by
  unfold upsert_file
  rw [h]
  simp [hne]

theorem upsert_file_eq_of_empty (c : Collection) (fs : FS) (path docType text : String)
    (h : fsRead? fs path = some text)
    (he : (split_paragraphs text).isEmpty = true) :
    upsert_file c fs path docType = (c, 0) := by
  unfold upsert_file
  rw [h]
  simp [he]

/-- Claim C4: for an existing file, `upsert_file` runs the chunker; zero
chunks means it returns 0 leaving the collection untouched; otherwise it
writes the `k` chunks under identities `source::0 … source::(k-1)` (source
the file stem) with metadata `source`/`type`, replacing entries with those
identities and leaving every other identity unchanged, and returns `k`. -/
theorem upsert_file_spec (c : Collection) (fs : FS) (path docType text : String)
    (hread : fsRead? fs path = some text) :
    ((split_paragraphs text).isEmpty = true →
      upsert_file c fs path docType = (c, 0))
    ∧ (upsert_file c fs path docType).2 = (split_paragraphs text).length
    ∧ (∀ i (hi : i < (split_paragraphs text).length),
        findEntry? (upsert_file c fs path docType).1 (mkId (pathStem path) i)
          = some (Entry.mk (mkId (pathStem path) i)
              ((split_paragraphs text).get ⟨i, hi⟩) (pathStem path) docType))
    ∧ (∀ j : String,
        (∀ i, i < (split_paragraphs text).length → j ≠ mkId (pathStem path) i) →
        findEntry? (upsert_file c fs path docType).1 j = findEntry? c j) := by
  by_cases he : (split_paragraphs text).isEmpty
  · have heq := upsert_file_eq_of_empty c fs path docType text hread he
    have hlen : (split_paragraphs text).length = 0 := by
      rw [List.isEmpty_iff] at he
      simp [he]
    refine ⟨fun _ => heq, ?_, ?_, ?_⟩
    · rw [heq, hlen]
    · intro i hi
      omega
    · intro j _
      rw [heq]
  · have hne : (split_paragraphs text).isEmpty = false := by
      simpa using he
    have heq := upsert_file_eq_of_some c fs path docType text hread hne
    refine ⟨fun hh => absurd hh he, ?_, ?_, ?_⟩
    · rw [heq]
    · intro i hi
      rw [heq]
      exact findEntry?_upsert_chunks c (pathStem path) docType _ i hi
    · intro j hj
      rw [heq]
      exact findEntry?_upsert_chunks_frame c (pathStem path) docType _ j hj

/-- Witness for Claim C4 at a concrete one-chunk file. -/
theorem upsert_file_spec_witness :
    ((split_paragraphs "This paragraph is long enough to pass the fifty character minimum easily.").isEmpty = true →
      upsert_file [] [("memory/2025-06-01.md", "This paragraph is long enough to pass the fifty character minimum easily.")] "memory/2025-06-01.md" "daily" = ([], 0))
    ∧ (upsert_file [] [("memory/2025-06-01.md", "This paragraph is long enough to pass the fifty character minimum easily.")] "memory/2025-06-01.md" "daily").2
        = (split_paragraphs "This paragraph is long enough to pass the fifty character minimum easily.").length
    ∧ (∀ i (hi : i < (split_paragraphs "This paragraph is long enough to pass the fifty character minimum easily.").length),
        findEntry? (upsert_file [] [("memory/2025-06-01.md", "This paragraph is long enough to pass the fifty character minimum easily.")] "memory/2025-06-01.md" "daily").1 (mkId (pathStem "memory/2025-06-01.md") i)
          = some (Entry.mk (mkId (pathStem "memory/2025-06-01.md") i)
              ((split_paragraphs "This paragraph is long enough to pass the fifty character minimum easily.").get ⟨i, hi⟩) (pathStem "memory/2025-06-01.md") "daily"))
    ∧ (∀ j : String,
        (∀ i, i < (split_paragraphs "This paragraph is long enough to pass the fifty character minimum easily.").length → j ≠ mkId (pathStem "memory/2025-06-01.md") i) →
        findEntry? (upsert_file [] [("memory/2025-06-01.md", "This paragraph is long enough to pass the fifty character minimum easily.")] "memory/2025-06-01.md" "daily").1 j = findEntry? [] j) :=
  upsert_file_spec [] _ "memory/2025-06-01.md" "daily"
    "This paragraph is long enough to pass the fifty character minimum easily." rfl

/-! ### Lemmas about the file system model -/

theorem fsRead?_map_self (fs : FS) (p v : String)
    (h : fs.any (fun e => e.1 == p) = true) :
    fsRead? (fs.map (fun e => if e.1 == p then (p, v) else e)) p = some v := by
  induction fs with
  | nil => simp at h
  | cons x rest ih =>
    simp only [List.any_cons, Bool.or_eq_true, beq_iff_eq] at h
    by_cases hx : x.1 = p
    · unfold fsRead?
      rw [List.map_cons, if_pos (by simp [hx])]
      rw [List.find?_cons_of_pos _ (by simp)]
      rfl
    · have h2 : rest.any (fun e => e.1 == p) = true := by
        rcases h with h | h
        · exact absurd h hx
        · exact h
      unfold fsRead? at ih ⊢
      rw [List.map_cons, if_neg (by simp [hx])]
      rw [List.find?_cons_of_neg _ (by simp [hx])]
      exact ih h2

theorem fsRead?_append_self (fs : FS) (p v : String)
    (h : fs.any (fun e => e.1 == p) = false) :
    fsRead? (fs ++ [(p, v)]) p = some v := by
  unfold fsRead?
  rw [List.find?_append]
  have h0 : List.find? (fun e => e.1 == p) fs = none := by
    refine List.find?_eq_none.mpr ?_
    intro x hx
    simp only [List.any_eq_false, beq_iff_eq] at h
    simp [h x hx]
  rw [h0]
  simp [List.find?]

theorem fsRead?_fsWrite_self (fs : FS) (p v : String) :
    fsRead? (fsWrite fs p v) p = some v := by
  unfold fsWrite
  split
  · rename_i h
    exact fsRead?_map_self fs p v h
  · rename_i h
    exact fsRead?_append_self fs p v (Bool.eq_false_iff.mpr h)

/-- Claim C9: upserting a file and then a shorter version of it leaves the
reused lower identities holding only chunks of the new content, while the
previously written higher identities are not removed and still hold the old
chunks. -/
theorem upsert_file_shrink (c : Collection) (fs1 : FS) (path docType text1 text2 : String)
    (h1 : fsRead? fs1 path = some text1)
    (hk : (split_paragraphs text2).length < (split_paragraphs text1).length) :
    (∀ i (hi : i < (split_paragraphs text2).length),
        findEntry? (upsert_file (upsert_file c fs1 path docType).1
            (fsWrite fs1 path text2) path docType).1 (mkId (pathStem path) i)
          = some (Entry.mk (mkId (pathStem path) i)
              ((split_paragraphs text2).get ⟨i, hi⟩) (pathStem path) docType))
    ∧ (∀ i, (split_paragraphs text2).length ≤ i →
        ∀ hi : i < (split_paragraphs text1).length,
        findEntry? (upsert_file (upsert_file c fs1 path docType).1
            (fsWrite fs1 path text2) path docType).1 (mkId (pathStem path) i)
          = some (Entry.mk (mkId (pathStem path) i)
              ((split_paragraphs text1).get ⟨i, hi⟩) (pathStem path) docType)) := by
  have hne1 : (split_paragraphs text1).isEmpty = false := by
    rw [List.isEmpty_eq_false_iff_exists_mem]
    cases hcs : split_paragraphs text1 with
    | nil => rw [hcs] at hk; simp at hk
    | cons a t => exact ⟨a, by simp⟩
  have heq1 := upsert_file_eq_of_some c fs1 path docType text1 h1 hne1
  have h2 : fsRead? (fsWrite fs1 path text2) path = some text2 :=
    fsRead?_fsWrite_self fs1 path text2
  by_cases he2 : (split_paragraphs text2).isEmpty
  · have heq2 := upsert_file_eq_of_empty (upsert_file c fs1 path docType).1
      (fsWrite fs1 path text2) path docType text2 h2 he2
    have hlen2 : (split_paragraphs text2).length = 0 := by
      rw [List.isEmpty_iff] at he2
      simp [he2]
    constructor
    · intro i hi
      omega
    · intro i _ hi
      rw [heq2, heq1]
      exact findEntry?_upsert_chunks c (pathStem path) docType _ i hi
  · have hne2 : (split_paragraphs text2).isEmpty = false := by simpa using he2
    have heq2 := upsert_file_eq_of_some (upsert_file c fs1 path docType).1
      (fsWrite fs1 path text2) path docType text2 h2 hne2
    constructor
    · intro i hi
      rw [heq2]
      exact findEntry?_upsert_chunks _ (pathStem path) docType _ i hi
    · intro i hge hi
      rw [heq2]
      rw [findEntry?_upsert_chunks_frame _ (pathStem path) docType _ _
        (fun j hj hh => by
          have := mkId_inj (pathStem path) i j hh
          omega)]
      rw [heq1]
      exact findEntry?_upsert_chunks c (pathStem path) docType _ i hi

/-- Witness for Claim C9: a two-paragraph file shrunk to one paragraph. -/
theorem upsert_file_shrink_witness :
    (∀ i (hi : i < (split_paragraphs "The second version keeps only this single sufficiently long paragraph here.").length),
        findEntry? (upsert_file (upsert_file []
            [("memory/notes.md", "The first paragraph of the original document is certainly long enough here.\n\nThe second paragraph of the original document is also long enough to stay.")]
            "memory/notes.md" "daily").1
            (fsWrite [("memory/notes.md", "The first paragraph of the original document is certainly long enough here.\n\nThe second paragraph of the original document is also long enough to stay.")]
              "memory/notes.md" "The second version keeps only this single sufficiently long paragraph here.")
            "memory/notes.md" "daily").1 (mkId (pathStem "memory/notes.md") i)
          = some (Entry.mk (mkId (pathStem "memory/notes.md") i)
              ((split_paragraphs "The second version keeps only this single sufficiently long paragraph here.").get ⟨i, hi⟩) (pathStem "memory/notes.md") "daily"))
    ∧ (∀ i, (split_paragraphs "The second version keeps only this single sufficiently long paragraph here.").length ≤ i →
        ∀ hi : i < (split_paragraphs "The first paragraph of the original document is certainly long enough here.\n\nThe second paragraph of the original document is also long enough to stay.").length,
        findEntry? (upsert_file (upsert_file []
            [("memory/notes.md", "The first paragraph of the original document is certainly long enough here.\n\nThe second paragraph of the original document is also long enough to stay.")]
            "memory/notes.md" "daily").1
            (fsWrite [("memory/notes.md", "The first paragraph of the original document is certainly long enough here.\n\nThe second paragraph of the original document is also long enough to stay.")]
              "memory/notes.md" "The second version keeps only this single sufficiently long paragraph here.")
            "memory/notes.md" "daily").1 (mkId (pathStem "memory/notes.md") i)
          = some (Entry.mk (mkId (pathStem "memory/notes.md") i)
              ((split_paragraphs "The first paragraph of the original document is certainly long enough here.\n\nThe second paragraph of the original document is also long enough to stay.").get ⟨i, hi⟩) (pathStem "memory/notes.md") "daily")) :=
  upsert_file_shrink [] _ "memory/notes.md" "daily"
    "The first paragraph of the original document is certainly long enough here.\n\nThe second paragraph of the original document is also long enough to stay."
    "The second version keeps only this single sufficiently long paragraph here."
    rfl (by decide)

/-- Claim C2: `append_today` and `write_long_term` never fail because of an
indexing failure — whatever the indexing outcome (success or a raised
exception, which is swallowed), the file system is the same as on the success
path and the on-disk file contains the newly written content. -/
theorem memory_write_survives_index_failure (s : MemState) (today content : String)
    (o : IndexOutcome) :
    (append_today s today content o).fs = (append_today s today content .ok).fs
    ∧ fsRead? (append_today s today content o).fs (todayPath today)
        = some (match fsRead? s.fs (todayPath today) with
                | some existing => existing ++ "\n" ++ content
                | none => "# " ++ today ++ "\n\n" ++ content)
    ∧ (write_long_term s content o).fs = (write_long_term s content .ok).fs
    ∧ fsRead? (write_long_term s content o).fs memoryFilePath = some content := by
  refine ⟨rfl, ?_, rfl, ?_⟩
  · unfold append_today
    cases hr : fsRead? s.fs (todayPath today) <;>
      simp only [hr] <;> exact fsRead?_fsWrite_self _ _ _
  · unfold write_long_term
    exact fsRead?_fsWrite_self _ _ _

/-- Claim C6: starting with no file for today, appending `c1` and then `c2`
leaves today's file holding the date header followed by `c1`, a newline, and
`c2`; `read_today` returns exactly that string. -/
theorem append_today_twice (s : MemState) (today c1 c2 : String)
    (o1 o2 : IndexOutcome) (h : fsRead? s.fs (todayPath today) = none) :
    (read_today (append_today (append_today s today c1 o1) today c2 o2) today).1
      = "# " ++ today ++ "\n\n" ++ c1 ++ "\n" ++ c2 := by
  have h2 : fsRead? (append_today s today c1 o1).fs (todayPath today)
      = some ("# " ++ today ++ "\n\n" ++ c1) := by
    unfold append_today
    simp only [h]
    exact fsRead?_fsWrite_self _ _ _
  generalize append_today s today c1 o1 = s1 at h2 ⊢
  unfold read_today append_today
  simp only [h2]
  simp [fsRead?_fsWrite_self, String.append_assoc]

/-- Witness for Claim C6 starting from an empty workspace. -/
theorem append_today_twice_witness :
    (read_today (append_today (append_today (MemState.mk [] none) "2025-06-01"
        "hello" .ok) "2025-06-01" "world" .ok) "2025-06-01").1
      = "# " ++ "2025-06-01" ++ "\n\n" ++ "hello" ++ "\n" ++ "world" :=
  append_today_twice (MemState.mk [] none) "2025-06-01" "hello" "world" .ok .ok rfl

/-! ### Lemmas about stripping -/

theorem dropWhile_idem {α : Type} (p : α → Bool) (l : List α) :
    (l.dropWhile p).dropWhile p = l.dropWhile p := by
  induction l with
  | nil => rfl
  | cons a t ih =>
    by_cases h : p a
    · rw [List.dropWhile_cons]
      simp only [h, if_pos]
      exact ih
    · rw [List.dropWhile_cons]
      simp only [h]
      rw [if_neg (by simp [h]), List.dropWhile_cons, if_neg (by simp [h])]

theorem head_dropWhile_false {α : Type} (p : α → Bool) (l : List α) (a : α)
    (t : List α) (h : l.dropWhile p = a :: t) : p a = false := by
  induction l with
  | nil => simp at h
  | cons x r ih =>
    by_cases hx : p x
    · rw [List.dropWhile_cons, if_pos (by simp [hx])] at h
      exact ih h
    · rw [List.dropWhile_cons, if_neg (by simp [hx])] at h
      cases h
      simpa using hx

theorem getLast?_dropWhile {α : Type} (p : α → Bool) (z : List α)
    (h : z.dropWhile p ≠ []) : (z.dropWhile p).getLast? = z.getLast? := by
  induction z with
  | nil => simp at h
  | cons a t ih =>
    by_cases ha : p a
    · rw [List.dropWhile_cons, if_pos (by simp [ha])] at h ⊢
      have ht : t ≠ [] := by
        intro hh
        rw [hh] at h
        simp at h
      rw [ih h]
      cases t with
      | nil => exact absurd rfl ht
      | cons b t2 => rw [List.getLast?_cons_cons]
    · rw [List.dropWhile_cons, if_neg (by simp [ha])]

theorem trimChars_dropWhile (l : List Char) :
    (trimChars l).dropWhile isPyWhitespace = trimChars l := by
  cases hc : trimChars l with
  | nil => rfl
  | cons a t =>
    have hx : ((l.dropWhile isPyWhitespace).reverse.dropWhile isPyWhitespace)
        ≠ [] := by
      intro hh
      rw [trimChars, hh] at hc
      simp at hc
    have hlast : ((l.dropWhile isPyWhitespace).reverse.dropWhile
        isPyWhitespace).getLast? = some a := by
      have h1 : ((l.dropWhile isPyWhitespace).reverse.dropWhile
          isPyWhitespace).reverse.head? = some a := by
        rw [← trimChars, hc]
        rfl
      rwa [List.head?_reverse] at h1
    have hlast2 : (l.dropWhile isPyWhitespace).reverse.getLast? = some a := by
      rw [← getLast?_dropWhile isPyWhitespace _ hx]
      exact hlast
    have hhead : (l.dropWhile isPyWhitespace).head? = some a := by
      rwa [List.getLast?_reverse] at hlast2
    have hpa : isPyWhitespace a = false := by
      cases hd : l.dropWhile isPyWhitespace with
      | nil => rw [hd] at hhead; simp at hhead
      | cons b t2 =>
        rw [hd] at hhead
        simp only [List.head?_cons, Option.some.injEq] at hhead
        rw [← hhead]
        exact head_dropWhile_false isPyWhitespace l b t2 hd
    rw [List.dropWhile_cons, if_neg (by simp [hpa])]

theorem trimChars_idem (l : List Char) :
    trimChars (trimChars l) = trimChars l := by
  have L2 : (trimChars l).reverse.dropWhile isPyWhitespace
      = (trimChars l).reverse := by
    rw [trimChars, List.reverse_reverse]
    exact dropWhile_idem _ _
  show (((trimChars l).dropWhile isPyWhitespace).reverse.dropWhile
    isPyWhitespace).reverse = trimChars l
  rw [trimChars_dropWhile, L2, List.reverse_reverse]

theorem pyStrip_idem (s : String) : pyStrip (pyStrip s) = pyStrip s := by
  show String.mk (trimChars (trimChars s.data)) = String.mk (trimChars s.data)
  rw [trimChars_idem]

/-- Claim C3: the chunker returns exactly the blank-line-separated paragraphs
of the text, trimmed, keeping in original order precisely those of trimmed
length at least 50; every returned chunk is trimmed with length at least 50,
and all-short input yields the empty list. -/
theorem split_paragraphs_correct (text : String) :
    split_paragraphs text = splitParagraphsSpec text
    ∧ (∀ chunk ∈ split_paragraphs text,
        MIN_CHUNK_LENGTH ≤ (pyStrip chunk).length ∧ pyStrip chunk = chunk)
    ∧ ((∀ p ∈ (splitOnBlank text.data []).map String.mk,
          (pyStrip p).length < MIN_CHUNK_LENGTH) →
        split_paragraphs text = []) := by
  refine ⟨?_, ?_, ?_⟩
  · unfold split_paragraphs splitParagraphsSpec
    rw [List.filter_map]
    rfl
  · intro chunk hc
    unfold split_paragraphs at hc
    obtain ⟨p, hp, rfl⟩ := List.mem_map.mp hc
    have hlen := of_decide_eq_true (List.mem_filter.mp hp).2
    exact ⟨by rw [pyStrip_idem]; exact hlen, pyStrip_idem p⟩
  · intro hshort
    unfold split_paragraphs
    have hf : ((splitOnBlank text.data []).map String.mk).filter
        (fun p => MIN_CHUNK_LENGTH ≤ (pyStrip p).length) = [] := by
      rw [List.filter_eq_nil_iff]
      intro p hp
      simp only [decide_eq_true_eq, not_le]
      exact hshort p hp
    simp only [hf, List.map_nil]

/-- Witness for Claim C3 on an all-short input. -/
theorem split_paragraphs_correct_witness :
    split_paragraphs "tiny note" = splitParagraphsSpec "tiny note"
    ∧ split_paragraphs "tiny note" = [] :=
  ⟨(split_paragraphs_correct "tiny note").1,
   (split_paragraphs_correct "tiny note").2.2 (by decide)⟩

theorem search_length_le (c : Collection) (q : String) (n : Nat)
    (w : Option WhereClause) (rank : List Entry → List Entry) (bf : Bool) :
    (search c q n w rank bf).length ≤ n := by
  unfold search
  split
  · simp
  · unfold collQuery
    rw [List.length_map]
    exact List.length_take_le _ _

theorem search_fails_empty (c : Collection) (q : String) (n : Nat)
    (w : Option WhereClause) (rank : List Entry → List Entry) (bf : Bool)
    (h : bf = true) : search c q n w rank bf = [] := by
  unfold search
  rw [if_pos h]

/-- Claim C7: `search` returns at most `nResults` chunk texts, and when the
backend query raises, the exception is caught and the empty list is
returned — `search` itself never raises. -/
theorem search_spec (c : Collection) (q : String) (n : Nat) (w : Option WhereClause)
    (rank : List Entry → List Entry) (bf : Bool) :
    (search c q n w rank bf).length ≤ n
    ∧ (bf = true → search c q n w rank bf = []) :=
  ⟨search_length_le c q n w rank bf, search_fails_empty c q n w rank bf⟩

/-- Witness for Claim C7 with a failing backend. -/
theorem search_spec_witness :
    (search [] "q" 3 none id true).length ≤ 3 ∧ search [] "q" 3 none id true = [] :=
  ⟨(search_spec [] "q" 3 none id true).1, (search_spec [] "q" 3 none id true).2 rfl⟩

theorem formatFragments_head (rs : List String) (h : rs ≠ []) :
    ∃ rest, formatFragments rs
      = "Found " ++ Nat.repr rs.length ++ " relevant memory fragments:\n" ++ rest := by
  unfold formatFragments
  cases rs with
  | nil => exact absurd rfl h
  | cons a t =>
    cases hm : ((List.range (a :: t).length).zip (a :: t)).map
        (fun p => "--- Fragment " ++ Nat.repr (p.1 + 1) ++ " ---\n" ++ p.2 ++ "\n") with
    | nil =>
      exfalso
      have hl := congrArg List.length hm
      simp at hl
    | cons x xs =>
      refine ⟨"\n" ++ joinSep "\n" (x :: xs), ?_⟩
      rw [show joinSep "\n"
        (("Found " ++ Nat.repr (a :: t).length ++ " relevant memory fragments:\n")
          :: x :: xs)
        = ("Found " ++ Nat.repr (a :: t).length ++ " relevant memory fragments:\n")
          ++ "\n" ++ joinSep "\n" (x :: xs) from rfl]
      simp only [String.append_assoc]

/-- Claim C8: `search_memory` returns the fixed unavailability sentinel when
no index is configured, regardless of the query; with an index it returns the
no-memories sentinel exactly when the search result is empty, and otherwise a
numbered listing whose stated count is the number of results. -/
theorem search_memory_spec (s : MemState) (today query : String) (n : Nat)
    (rank : List Entry → List Entry) (o : IndexOutcome) (bf : Bool) :
    (s.vector = none → (search_memory s today query n rank o bf).1 = searchUnavailableMsg)
    ∧ (∀ c, s.vector = some c →
        ((search (refreshToday s.fs today c o) query n none rank bf = [] →
            (search_memory s today query n rank o bf).1
              = "No memories found for: " ++ query)
         ∧ (search (refreshToday s.fs today c o) query n none rank bf ≠ [] →
            (search_memory s today query n rank o bf).1
              = formatFragments (search (refreshToday s.fs today c o) query n none rank bf)
            ∧ ∃ rest, (search_memory s today query n rank o bf).1
                = "Found "
                  ++ Nat.repr (search (refreshToday s.fs today c o) query n none rank bf).length
                  ++ " relevant memory fragments:\n" ++ rest))) := by
  constructor
  · intro hnone
    unfold search_memory
    rw [hnone]
  · intro c hc
    constructor
    · intro hempty
      unfold search_memory
      rw [hc]
      simp only [hempty]
      rfl
    · intro hne
      have hie : (search (refreshToday s.fs today c o) query n none rank bf).isEmpty
          = false := by
        rw [List.isEmpty_eq_false_iff_exists_mem]
        cases hs2 : search (refreshToday s.fs today c o) query n none rank bf with
        | nil => exact absurd hs2 hne
        | cons a t => exact ⟨a, by simp⟩
      constructor
      · unfold search_memory
        rw [hc]
        simp only [hie, Bool.false_eq_true, if_false]
      · obtain ⟨rest, hr⟩ := formatFragments_head _ hne
        refine ⟨rest, ?_⟩
        rw [← hr]
        unfold search_memory
        rw [hc]
        simp only [hie, Bool.false_eq_true, if_false]

/-- Witness for Claim C8: the sentinel with no index, and the no-memories
sentinel with an index over an empty collection. -/
theorem search_memory_spec_witness :
    (search_memory (MemState.mk [] none) "2025-06-01" "q" 10 id .ok false).1
      = searchUnavailableMsg
    ∧ (search_memory (MemState.mk [] (some [])) "2025-06-01" "q" 10 id .ok false).1
      = "No memories found for: " ++ "q" :=
  ⟨(search_memory_spec (MemState.mk [] none) "2025-06-01" "q" 10 id .ok false).1 rfl,
   ((search_memory_spec (MemState.mk [] (some [])) "2025-06-01" "q" 10 id .ok
      false).2 [] rfl).1 rfl⟩

/-- Claim C10: the read operations `read_today`, `read_long_term`,
`get_recent_memories` and `list_memory_files` are observationally read-only:
they return the memory-store state (files and semantic index) unchanged. -/
theorem read_ops_pure (s : MemState) (today : String)
    (dateOfDaysAgo : Nat → String) (days : Nat) :
    (read_today s today).2 = s
    ∧ (read_long_term s).2 = s
    ∧ (get_recent_memories s dateOfDaysAgo days).2 = s
    ∧ (list_memory_files s).2 = s :=
  ⟨rfl, rfl, rfl, rfl⟩

/-! ### Lemmas for the context search filter -/

theorem search_results_from_filter (c : Collection) (q : String) (n : Nat)
    (w : WhereClause) (rank : List Entry → List Entry) (bf : Bool)
    (hrank : ∀ l, ∀ e ∈ rank l, e ∈ l) :
    ∀ r ∈ search c q n (some w) rank bf,
      ∃ e, e ∈ c ∧ w.eval e = true ∧ e.doc = r := by
  intro r hr
  unfold search at hr
  by_cases hbf : bf
  · rw [if_pos hbf] at hr
    cases hr
  · rw [if_neg hbf] at hr
    unfold collQuery at hr
    obtain ⟨e, he, rfl⟩ := List.mem_map.mp hr
    have he2 := hrank _ e (List.mem_of_mem_take he)
    have he3 := List.mem_filter.mp he2
    exact ⟨e, he3.1, by simpa using he3.2, rfl⟩

theorem contextWhere_eval (today : String) (e : Entry) :
    (contextWhere today).eval e = true ↔ e.type = "daily" ∧ e.source ≠ today := by
  simp [contextWhere, WhereClause.eval, bne_iff_ne]

theorem joinSep_append_last (sep : String) (l : List String) (x : String) :
    ∃ pre, joinSep sep (l ++ [x]) = pre ++ x := by
  induction l with
  | nil => exact ⟨"", rfl⟩
  | cons a t ih =>
    obtain ⟨pre, hp⟩ := ih
    cases t with
    | nil => exact ⟨a ++ sep, rfl⟩
    | cons b t2 =>
      refine ⟨a ++ sep ++ pre, ?_⟩
      have h1 : joinSep sep ((a :: b :: t2) ++ [x])
          = a ++ sep ++ joinSep sep ((b :: t2) ++ [x]) := rfl
      rw [h1, hp]
      simp only [String.append_assoc]

/-- Claim C5: with a semantic index configured, the relevant-past-memories
search of `get_memory_context` yields at most 5 results, each the text of a
chunk of the (refreshed) collection whose metadata satisfies the filter
(type = daily and source not equal to today's date string) — so no chunk
whose source equals today can appear; the nonempty section appended to the
context is built exactly from those results. -/
theorem get_memory_context_excludes_today (s : MemState) (today q : String)
    (rank : List Entry → List Entry) (o : IndexOutcome) (bf : Bool)
    (c : Collection) (hc : s.vector = some c)
    (hrank : ∀ l, ∀ e ∈ rank l, e ∈ l) :
    (contextSearchResults s today q rank o bf).length ≤ 5
    ∧ (∀ r ∈ contextSearchResults s today q rank o bf,
        ∃ e, e ∈ refreshToday s.fs today c o ∧ e.doc = r
          ∧ e.type = "daily" ∧ e.source ≠ today)
    ∧ (q.isEmpty = false → contextSearchResults s today q rank o bf ≠ [] →
        ∃ pre, (get_memory_context s today (some q) rank o bf).1
          = pre ++ ("## Relevant Past Memories\n"
              ++ joinSep "\n\n---\n\n" (contextSearchResults s today q rank o bf))) := by
  refine ⟨?_, ?_, ?_⟩
  · unfold contextSearchResults
    rw [hc]
    exact search_length_le _ q 5 _ rank bf
  · intro r hr
    unfold contextSearchResults at hr
    rw [hc] at hr
    obtain ⟨e, he, hev, hdoc⟩ :=
      search_results_from_filter _ q 5 (contextWhere today) rank bf hrank r hr
    have hw := (contextWhere_eval today e).mp hev
    exact ⟨e, he, hdoc, hw.1, hw.2⟩
  · intro hq hne
    have hie : (contextSearchResults s today q rank o bf).isEmpty = false := by
      rw [List.isEmpty_eq_false_iff_exists_mem]
      cases hs2 : contextSearchResults s today q rank o bf with
      | nil => exact absurd hs2 hne
      | cons a t => exact ⟨a, by simp⟩
    unfold get_memory_context
    rw [hc]
    simp only [hq, Bool.false_eq_true, if_false, hie]
    exact joinSep_append_last "\n\n" _ _

/-- Witness for Claim C5 over a collection holding one past-day chunk. -/
theorem get_memory_context_excludes_today_witness :
    (contextSearchResults (MemState.mk []
        (some [Entry.mk "2025-01-01::0" "an old note" "2025-01-01" "daily"]))
        "2025-06-01" "hi" id .ok false).length ≤ 5
    ∧ (∀ r ∈ contextSearchResults (MemState.mk []
        (some [Entry.mk "2025-01-01::0" "an old note" "2025-01-01" "daily"]))
        "2025-06-01" "hi" id .ok false,
        ∃ e, e ∈ refreshToday ([] : FS) "2025-06-01"
            [Entry.mk "2025-01-01::0" "an old note" "2025-01-01" "daily"] .ok
          ∧ e.doc = r ∧ e.type = "daily" ∧ e.source ≠ "2025-06-01")
    ∧ (("hi" : String).isEmpty = false →
        contextSearchResults (MemState.mk []
          (some [Entry.mk "2025-01-01::0" "an old note" "2025-01-01" "daily"]))
          "2025-06-01" "hi" id .ok false ≠ [] →
        ∃ pre, (get_memory_context (MemState.mk []
            (some [Entry.mk "2025-01-01::0" "an old note" "2025-01-01" "daily"]))
            "2025-06-01" (some "hi") id .ok false).1
          = pre ++ ("## Relevant Past Memories\n"
              ++ joinSep "\n\n---\n\n" (contextSearchResults (MemState.mk []
                  (some [Entry.mk "2025-01-01::0" "an old note" "2025-01-01" "daily"]))
                  "2025-06-01" "hi" id .ok false))) :=
  get_memory_context_excludes_today
    (MemState.mk [] (some [Entry.mk "2025-01-01::0" "an old note" "2025-01-01" "daily"]))
    "2025-06-01" "hi" id .ok false
    [Entry.mk "2025-01-01::0" "an old note" "2025-01-01" "daily"] rfl
    (fun _ _ h => h)

end Nanobot
